import Mathlib

/-!
Verification of the AI Workbench path-classification / tree-scanning engine
and its status / Jira-link text extraction, as a shallow embedding of the
JavaScript sources (scanner.js, status.js, jira.js).

Strings are modelled as Lean `String` (lists of characters); JavaScript
regular-expression matching for the fixed patterns in the source is modelled
by explicit scanning functions; `localeCompare` is modelled as code-point
lexicographic comparison (a fixed, total, locale-independent instance of the
comparator contract).
-/

set_option maxHeartbeats 1000000
set_option maxRecDepth 8000

namespace Workbench

/-! Character classes used by the JavaScript regex / trim semantics. -/

/-- JavaScript word character, the regex class `\w` = [A-Za-z0-9_]. -/
def wordChar (c : Char) : Bool := c.isAlpha || c.isDigit || c == '_'

/-- Case-insensitive character comparison, modelling the regex `i` flag
for the ASCII keywords that occur in the source patterns. -/
def lowerEq (a b : Char) : Bool := a.toLower == b.toLower

/-- JavaScript whitespace, the regex class `\s` (also the set removed by
`String.prototype.trim`). -/
def isJsSpace (c : Char) : Bool :=
  c == ' ' || c == '\t' || c == '\n' || c == '\r' || c == '\x0b' || c == '\x0c' ||
  c == '\u00A0' || c == '\u1680' || c == '\u2000' || c == '\u2001' || c == '\u2002' ||
  c == '\u2003' || c == '\u2004' || c == '\u2005' || c == '\u2006' || c == '\u2007' ||
  c == '\u2008' || c == '\u2009' || c == '\u200A' || c == '\u2028' || c == '\u2029' ||
  c == '\u202F' || c == '\u205F' || c == '\u3000' || c == '\uFEFF'

/-! Splitting and joining on a separator character, modelling the JavaScript
`String.prototype.split(sep)` / `Array.prototype.join(sep)` pair for a
single-character separator. -/

def splitOnChar (sep : Char) : List Char → List (List Char)
  | [] => [[]]
  | c :: rest =>
    if c == sep then [] :: splitOnChar sep rest
    else
      match splitOnChar sep rest with
      | [] => [[c]]
      | l :: ls => (c :: l) :: ls

def joinWithChar (sep : Char) : List (List Char) → List Char
  | [] => []
  | [l] => l
  | l :: ls => l ++ sep :: joinWithChar sep ls

/-! StatusExtractor: embedding of status.js `parseStatus`. Each keyword
pattern in the source is of the form `/\bkw\b/i`; such a pattern matches a
text iff at some position the keyword occurs case-insensitively with a word
boundary on each side. -/

/-- Try to strip keyword `w` (case-insensitively) from the front of `s`. -/
def stripCI : List Char → List Char → Option (List Char)
  | [], s => some s
  | _ :: _, [] => none
  | w :: ws, c :: cs => if lowerEq w c then stripCI ws cs else none

/-- A word boundary holds after the match: end of text or a non-word char. -/
def boundaryAfter : List Char → Bool
  | [] => true
  | c :: _ => !wordChar c

/-- The pattern `\bw\b` (with `i` flag) matches at the current position,
given that the previous character was not a word character. -/
def keywordAt (w s : List Char) : Bool :=
  match stripCI w s with
  | some r => boundaryAfter r
  | none => false

/-- Scan for a `\bw\b` match anywhere, carrying whether the previous
character was a word character (for the left boundary). -/
def occursAux (w : List Char) : List Char → Bool → Bool
  | [], _ => false
  | c :: rest, prevW => ((!prevW) && keywordAt w (c :: rest)) || occursAux w rest (wordChar c)

/-- The regex `/\bw\b/i` tests true on `s`. -/
def occursWord (w s : List Char) : Bool := occursAux w s false

def completedKeywords : List (List Char) := ["completed".data, "done".data, "finished".data]
def blockedKeywords : List (List Char) := ["blocked".data, "waiting".data, "stuck".data]
def inProgressKeywords : List (List Char) := ["in progress".data, "working".data, "started".data]

/-- Some pattern of the keyword set matches the sample. -/
def anyKeyword (kws : List (List Char)) (s : List Char) : Bool :=
  kws.any fun w => occursWord w s

/-- The ordered `STATUS_PATTERNS` table from status.js. -/
def statusPatterns : List (String × List (List Char)) :=
  [("completed", completedKeywords),
   ("blocked", blockedKeywords),
   ("in-progress", inProgressKeywords)]

/-- First status in priority order with any pattern match; default fallback. -/
def findStatus : List (String × List (List Char)) → List Char → String
  | [], _ => "not-started"
  | (st, pats) :: rest, sample =>
    if pats.any (fun w => occursWord w sample) then st else findStatus rest sample

/-- status.js `parseStatus`: analyze the first 500 characters only. -/
def parseStatus (content : String) : String :=
  findStatus statusPatterns (content.data.take 500)

/-! LinkExtractor: embedding of jira.js. The fixed pattern
`JIRA_LINK_PATTERN` is the regex matching a literal marker, optional
whitespace, and a bracketed key; for this pattern greedy scanning is
equivalent to the backtracking regex semantics, because each repeated class
is disjoint from the character that must follow it. -/

/-- The literal part of `JIRA_LINK_PATTERN`. -/
def litJira : List Char := "**Jira**:".data

/-- Strip an exact literal from the front of a character list. -/
def dropLit : List Char → List Char → Option (List Char)
  | [], s => some s
  | _ :: _, [] => none
  | l :: ls, c :: cs => if c == l then dropLit ls cs else none

/-- Consume one expected literal character. -/
def expectChar (c : Char) : List Char → Option (List Char)
  | [] => none
  | a :: rest => if a = c then some rest else none

/-- The capture group `([A-Z]+-[0-9]+)` followed by the closing bracket:
one or more uppercase letters, a hyphen, one or more digits, then the
literal close bracket. -/
def matchKey (r3 : List Char) : Option (List Char) :=
  if (r3.takeWhile Char.isUpper).isEmpty then none
  else
    (expectChar '-' (r3.dropWhile Char.isUpper)).bind fun r5 =>
      if (r5.takeWhile Char.isDigit).isEmpty then none
      else
        (expectChar ']' (r5.dropWhile Char.isDigit)).bind fun _ =>
          some (r3.takeWhile Char.isUpper ++ '-' :: r5.takeWhile Char.isDigit)

/-- After the literal marker: the `\s*` run, the open bracket, then the
key group. -/
def matchTail (r1 : List Char) : Option (List Char) :=
  (expectChar '[' (r1.dropWhile isJsSpace)).bind fun r3 => matchKey r3

/-- Match `JIRA_LINK_PATTERN` at the current position, returning the
captured key (the bracketed `[A-Z]+-[0-9]+` group) on success. -/
def matchJiraAt (s : List Char) : Option (List Char) :=
  (dropLit litJira s).bind fun r1 => matchTail r1

/-- First match of `JIRA_LINK_PATTERN`, scanning positions left to right
(the semantics of `String.prototype.match` without the `g` flag). -/
def findJiraMatch : List Char → Option (List Char)
  | [] => none
  | c :: rest =>
    match matchJiraAt (c :: rest) with
    | some k => some k
    | none => findJiraMatch rest

/-- jira.js `hasJiraLink`: the first match's captured key, or none. -/
def hasJiraLink (content : String) : Option String :=
  (findJiraMatch content.data).map fun l => String.mk l

/-- Whether a line is blank after `trim()` (all JS whitespace). -/
def isBlankLine (l : List Char) : Bool := l.all isJsSpace

/-- Number of leading blank lines. -/
def countBlanks : List (List Char) → Nat
  | [] => 0
  | l :: rest => if isBlankLine l then countBlanks rest + 1 else 0

/-- Whether a line starts with the top-level heading marker, JS
`line.startsWith(String.ofList ['#', ' '])` written at character level. -/
def isHeadingLine : List Char → Bool
  | '#' :: ' ' :: _ => true
  | _ => false

/-- The insertion-index loop of `updateFeatureWithJiraLink`: default 1;
on the first heading line at index `i`, the index is `i + 1` advanced past
any immediately-following blank lines. -/
def insertIndexAux : List (List Char) → Nat → Nat
  | [], _ => 1
  | l :: rest, i =>
    if isHeadingLine l then (i + 1) + countBlanks rest
    else insertIndexAux rest (i + 1)

/-- The spec's `computeInsertionPoint(text)` (inlined in the source inside
`updateFeatureWithJiraLink`). -/
def computeInsertionPoint (content : String) : Nat :=
  insertIndexAux (splitOnChar '\n' content.data) 0

/-- jira.js `updateFeatureWithJiraLink`, restricted to its pure text
transformation: split into lines, splice in a blank line and the link line
at the computed insertion index, and re-join. -/
def insertJiraLink (content linkLine : String) : String :=
  let lines := splitOnChar '\n' content.data
  let idx := insertIndexAux lines 0
  String.mk (joinWithChar '\n' (lines.take idx ++ [[], linkLine.data] ++ lines.drop idx))

/-- The ticket-link line format produced by the backend and inserted by the
client: a bold label, the bracketed key, and a parenthesized url. -/
def jiraLinkLine (key url : String) : String :=
  "**Jira**: [" ++ key ++ "](" ++ url ++ ")"

/-- The character-level form of a link line. -/
def linkChars (key url : List Char) : List Char :=
  litJira ++ ' ' :: '[' :: (key ++ ']' :: '(' :: (url ++ [')']))

/-! PathClassifier: embedding of scanner.js `isAllowedEntry` and its helper
predicates. Paths are slash-joined strings; entry kinds are the strings
produced by the File System Access API, "file" and "directory". -/

/-- scanner.js `getPathSegments`. -/
def getPathSegments (path : String) : List String :=
  if path == "" then [] else (splitOnChar '/' path.data).map fun l => String.mk l

/-- scanner.js `isFeatureFolder`. -/
def isFeatureFolder (segments : List String) : Bool :=
  (segments.length == 2 && segments.getD 0 "" == "features")
  || (segments.length == 4 && segments.getD 0 "" == "projects"
        && segments.getD 2 "" == "features")

/-- scanner.js `isAgentsFolder`. -/
def isAgentsFolder (segments : List String) : Bool :=
  let depth := segments.length
  if segments.getD (depth - 1) "" != "agents" then false
  else
    (depth == 3 && segments.getD 0 "" == "features")
    || (depth == 5 && segments.getD 0 "" == "projects"
          && segments.getD 2 "" == "features")

/-- scanner.js `isAgentFolder`. -/
def isAgentFolder (segments : List String) : Bool :=
  (segments.length == 4 && segments.getD 0 "" == "features"
     && segments.getD 2 "" == "agents")
  || (segments.length == 6 && segments.getD 0 "" == "projects"
        && segments.getD 2 "" == "features" && segments.getD 4 "" == "agents")

/-- scanner.js `isAllowedEntry`: the positional schema rules, evaluated on
the parent directory's path. -/
def isAllowedEntry (entryName entryKind currentPath : String) : Bool :=
  let segments := getPathSegments currentPath
  let depth := segments.length
  if depth == 0 then
    if entryKind == "directory" then entryName == "projects" || entryName == "features"
    else false
  else if segments.getD 0 "" == "projects" && depth == 1 then
    entryKind == "directory"
  else if segments.getD 0 "" == "projects" && depth == 2 then
    if entryKind == "directory" then entryName == "features"
    else if entryKind == "file" then entryName == "overview.md"
    else false
  else if segments.getD 0 "" == "projects" && depth == 3
            && segments.getD 2 "" == "features" then
    entryKind == "directory"
  else if segments.getD 0 "" == "features" && depth == 1 then
    entryKind == "directory"
  else if isFeatureFolder segments then
    if entryKind == "directory" then entryName == "agents"
    else if entryKind == "file" then entryName == "feature.md"
    else false
  else if isAgentsFolder segments then
    entryKind == "directory"
  else if isAgentFolder segments then
    if entryKind == "file" then
      entryName == "task-instructions.md" || entryName == "status.md"
    else false
  else false

/-! TreeScanner: embedding of scanner.js `scanDirectory`. The input
filesystem is a tree of named entries; a directory additionally carries
`failAt`: `some k` models a listing whose iterator throws after yielding its
first `k` entries (permission / I/O failure partway through), `none` a
listing that completes. The produced tree mirrors the source's node objects
(name, type via the constructor, path, children). -/

inductive FsNode where
  | file (name : String) : FsNode
  | dir (name : String) (entries : List FsNode) (failAt : Option Nat) : FsNode

namespace FsNode

def nameOf : FsNode → String
  | .file n => n
  | .dir n _ _ => n

def kindOf : FsNode → String
  | .file _ => "file"
  | .dir _ _ _ => "directory"

end FsNode

inductive TNode where
  | file (name path : String) : TNode
  | dir (name path : String) (children : List TNode) : TNode

namespace TNode

def nameOf : TNode → String
  | .file n _ => n
  | .dir n _ _ => n

def pathOf : TNode → String
  | .file _ p => p
  | .dir _ p _ => p

def isDirNode : TNode → Bool
  | .file _ _ => false
  | .dir _ _ _ => true

def childrenOf : TNode → List TNode
  | .file _ _ => []
  | .dir _ _ cs => cs

end TNode

/-- Code-point comparison of names, modelling `a.localeCompare(b) ≤ 0` for
the fixed comparator instance used in this development. -/
def charListLe : List Char → List Char → Bool
  | [], _ => true
  | _ :: _, [] => false
  | a :: as, b :: bs =>
    if a.toNat < b.toNat then true
    else if b.toNat < a.toNat then false
    else charListLe as bs

/-- The sort comparator of `scanDirectory` as a "comes no later than"
relation: directories before files; within a kind, ascending name order. -/
def nodeLe (a b : TNode) : Bool :=
  if a.isDirNode != b.isDirNode then a.isDirNode
  else charListLe a.nameOf.data b.nameOf.data

/-- `structure.children.sort(comparator)`: a stable sort whose output is
ordered by the comparator; realized by insertion sort. -/
def sortChildren (cs : List TNode) : List TNode :=
  List.insertionSort (fun a b => nodeLe a b = true) cs

/-- The would-be path of a child entry: JS `path ? path + '/' + name : name`. -/
def joinPath (p n : String) : String := if p == "" then n else p ++ "/" ++ n

/-- Remaining iterator budget: `none` for a listing that completes, `some k`
when the iterator will throw after `k` more yields. -/
def decFuel : Option Nat → Option Nat
  | none => none
  | some k => some (k - 1)

mutual

/-- scanner.js `scanDirectory`: the node records `path || dirHandle.name`,
children are the allowed entries yielded by the (possibly failing) listing,
recursively scanned, then sorted. The `try/catch` around the loop makes the
function total: a listing failure just truncates the yielded entries. -/
def scanDirectory : FsNode → String → TNode
  | FsNode.file n, p => TNode.file n (if p == "" then n else p)
  | FsNode.dir n entries failAt, p =>
    TNode.dir n (if p == "" then n else p)
      (sortChildren (scanYield entries failAt p))

/-- The `for await` loop: yield entries until the iterator is exhausted or
throws (after `k` yields when the budget is `some k`); each yielded entry is
filtered by `isAllowedEntry` against the parent path, directories recurse,
files become leaves. -/
def scanYield : List FsNode → Option Nat → String → List TNode
  | [], _, _ => []
  | _ :: _, some 0, _ => []
  | e :: rest, fuel, p =>
    if isAllowedEntry e.nameOf e.kindOf p then
      (match e with
       | FsNode.file n => TNode.file n (joinPath p n)
       | FsNode.dir _ _ _ => scanDirectory e (joinPath p e.nameOf))
      :: scanYield rest (decFuel fuel) p
    else scanYield rest (decFuel fuel) p

end

/-- A listing that completes: every entry of the directory is processed. -/
def scanList (es : List FsNode) (p : String) : List TNode := scanYield es none p

/-- The node produced for one allowed entry: files become leaves at their
would-be path, directories are scanned recursively. -/
def scanEntry (e : FsNode) (p : String) : TNode :=
  match e with
  | FsNode.file n => TNode.file n (joinPath p n)
  | FsNode.dir _ _ _ => scanDirectory e (joinPath p e.nameOf)

/-! WorkspaceMutator: embedding of scanner.js `checkDirectoryExists`.
A directory handle is modelled by its `getDirectoryHandle` behaviour: for
each name it either yields a subdirectory handle or throws a DOMException,
identified by its `name` string (for example "NotFoundError" or
"NotAllowedError"). -/

structure JsError where
  name : String
deriving DecidableEq

inductive DirHandle where
  | mk (getDir : String → Except JsError DirHandle) : DirHandle

def DirHandle.getDir : DirHandle → String → Except JsError DirHandle
  | .mk f => f

/-- The walk of the `for` loop in `checkDirectoryExists`: resolve each
segment in order, stopping at the first failure. -/
def walkSegments : DirHandle → List String → Except JsError DirHandle
  | d, [] => .ok d
  | d, s :: rest =>
    match d.getDir s with
    | .ok d2 => walkSegments d2 rest
    | .error e => .error e

/-- scanner.js `checkDirectoryExists`: true on success; a caught
`NotFoundError` yields false; any other failure is re-thrown. -/
def checkDirectoryExists (rootHandle : DirHandle) (pathSegments : List String) :
    Except JsError Bool :=
  match walkSegments rootHandle pathSegments with
  | .ok _ => .ok true
  | .error e => if e.name == "NotFoundError" then .ok false else .error e

/-! Observation predicates on produced trees, used to state the claims. -/

mutual

def containsName : TNode → String → Bool
  | .file n _, target => n == target
  | .dir n _ cs, target => n == target || containsNameList cs target

def containsNameList : List TNode → String → Bool
  | [], _ => false
  | c :: cs, target => containsName c target || containsNameList cs target

end

/-- Index of the first line starting with the top-level heading marker
(the spec's description of the scan). -/
def findHeadingIdx : List (List Char) → Option Nat
  | [] => none
  | l :: rest =>
    if isHeadingLine l then some 0 else (findHeadingIdx rest).map (· + 1)

/-- Number of path segments of a slash-joined path (0 for the root). -/
def depthOfPath (p : String) : Nat := (getPathSegments p).length

/-- A realizable entry name in the File System Access API: non-empty and
slash-free. -/
def cleanName (s : String) : Bool := s != "" && s.data.all (fun c => c != '/')

mutual

def cleanFs : FsNode → Bool
  | .file n => cleanName n
  | .dir n es _ => cleanName n && cleanFsList es

def cleanFsList : List FsNode → Bool
  | [] => true
  | e :: es => cleanFs e && cleanFsList es

end

mutual

/-- Below its root, every child's recorded path extends its parent's
recorded path by a slash and the child's name. -/
def innerPathsOk : TNode → Bool
  | .file _ _ => true
  | .dir _ pa cs => innerPathsOkList pa cs

def innerPathsOkList : String → List TNode → Bool
  | _, [] => true
  | pa, c :: cs =>
    (TNode.pathOf c == pa ++ "/" ++ TNode.nameOf c) && innerPathsOk c
      && innerPathsOkList pa cs

end

/-- Adjacent-pair ordering of a children list under the sort comparator. -/
def sortedListB : List TNode → Bool
  | [] => true
  | [_] => true
  | a :: b :: rest => nodeLe a b && sortedListB (b :: rest)

mutual

def treeSorted : TNode → Bool
  | .file _ _ => true
  | .dir _ _ cs => sortedListB cs && treeSortedList cs

def treeSortedList : List TNode → Bool
  | [] => true
  | c :: cs => treeSorted c && treeSortedList cs

end

mutual

/-- Every node of the tree lies at most `k` path segments deep. -/
def nodesWithin : TNode → Nat → Bool
  | .file _ pa, k => Nat.ble (depthOfPath pa) k
  | .dir _ pa cs, k => Nat.ble (depthOfPath pa) k && nodesWithinList cs k

def nodesWithinList : List TNode → Nat → Bool
  | [], _ => true
  | c :: cs, k => nodesWithin c k && nodesWithinList cs k

end

/-- A directory handle rejecting every lookup with a not-found error. -/
def missingDir : DirHandle := DirHandle.mk fun _ => Except.error ⟨"NotFoundError"⟩

/-- A directory handle with a single subdirectory named "features". -/
def sampleRoot : DirHandle :=
  DirHandle.mk fun s =>
    if s = "features" then Except.ok missingDir
    else Except.error ⟨"NotFoundError"⟩

/-- A directory handle rejecting every lookup with a permission error. -/
def permRoot : DirHandle := DirHandle.mk fun _ => Except.error ⟨"NotAllowedError"⟩

/-! Theorems about the embedded operations. -/

/-! C3 — StatusExtractor. -/

/-- C3: `parseStatus` examines only the first 500 characters and returns the
first status in the fixed priority order completed, blocked, in-progress
whose keyword set matches anywhere in that sample (case-insensitive,
word-boundary delimited), defaulting to not-started (in particular on the
empty string); "stuck in review" yields blocked and
"Status: Completed, but blocked initially" yields completed. -/
theorem parseStatus_spec :
    (∀ c₁ c₂ : String, c₁.data.take 500 = c₂.data.take 500 →
        parseStatus c₁ = parseStatus c₂)
  ∧ (∀ content : String,
      parseStatus content =
        (if anyKeyword completedKeywords (content.data.take 500) then "completed"
         else if anyKeyword blockedKeywords (content.data.take 500) then "blocked"
         else if anyKeyword inProgressKeywords (content.data.take 500) then "in-progress"
         else "not-started"))
  ∧ parseStatus "" = "not-started"
  ∧ parseStatus "stuck in review" = "blocked"
  ∧ parseStatus "Status: Completed, but blocked initially" = "completed" := by
  refine ⟨?_, ?_, ?_, ?_, ?_⟩
  · intro c₁ c₂ h
    unfold parseStatus
    rw [h]
  · intro content
    show findStatus statusPatterns (content.data.take 500) = _
    generalize content.data.take 500 = s
    simp [findStatus, statusPatterns, anyKeyword]
  · decide
  · decide
  · decide

/-- Witness for C3: two concrete texts agreeing on their first 500
characters (but not beyond) are assigned the same status, and the concrete
priority examples hold. -/
theorem parseStatus_spec_witness :
    parseStatus (String.mk (List.replicate 501 'a'))
      = parseStatus (String.mk (List.replicate 502 'a')) :=
  parseStatus_spec.1 _ _ (by simp [List.take_replicate])

/-! C8 — insertion point. -/

theorem insertIndexAux_spec : ∀ (ls : List (List Char)) (i : Nat),
    insertIndexAux ls i =
      match findHeadingIdx ls with
      | some j => i + j + 1 + countBlanks (ls.drop (j + 1))
      | none => 1 := by
  intro ls
  induction ls with
  | nil => intro i; rfl
  | cons l rest ih =>
    intro i
    by_cases h : isHeadingLine l = true
    · simp [insertIndexAux, findHeadingIdx, h]
      try omega
    · simp only [insertIndexAux, findHeadingIdx, h, if_false, ite_false,
        Bool.false_eq_true]
      rw [ih (i + 1)]
      cases hf : findHeadingIdx rest with
      | none => simp
      | some j =>
        simp only [Option.map_some', List.drop_succ_cons]
        ring

/-- C8: the computed insertion point is the index just after the first line
starting with the heading marker, advanced past immediately-following blank
lines; with no heading it is 1; on the three-line text consisting of a
heading, a blank line and a body line it is 2. -/
theorem computeInsertionPoint_spec :
    (∀ content : String,
      computeInsertionPoint content =
        (match findHeadingIdx (splitOnChar '\n' content.data) with
         | some j => j + 1 + countBlanks ((splitOnChar '\n' content.data).drop (j + 1))
         | none => 1))
  ∧ computeInsertionPoint "# Title\n\nBody" = 2
  ∧ (∀ content : String,
      findHeadingIdx (splitOnChar '\n' content.data) = none →
      computeInsertionPoint content = 1) := by
  refine ⟨?_, by decide, ?_⟩
  · intro content
    rw [computeInsertionPoint, insertIndexAux_spec]
    cases findHeadingIdx (splitOnChar '\n' content.data) <;> simp
  · intro content h
    rw [computeInsertionPoint, insertIndexAux_spec, h]

/-- Witness for C8: a heading-free text gets insertion point 1, via the
theorem applied at a concrete input. -/
theorem computeInsertionPoint_spec_witness :
    computeInsertionPoint "Body text" = 1 :=
  computeInsertionPoint_spec.2.2 "Body text" (by decide)

/-! C4 — machinery for the link insertion round-trip. -/

theorem takeWhile_append_of_all {α} (p : α → Bool) {l : List α} (u : List α)
    (h : ∀ c ∈ l, p c = true) :
    (l ++ u).takeWhile p = l ++ u.takeWhile p := by
  induction l with
  | nil => simp
  | cons a l ih =>
    have ha : p a = true := h a (by simp)
    simp only [List.cons_append, List.takeWhile_cons, ha, if_true]
    rw [ih fun c hc => h c (by simp [hc])]

theorem dropWhile_append_of_all {α} (p : α → Bool) {l : List α} (u : List α)
    (h : ∀ c ∈ l, p c = true) :
    (l ++ u).dropWhile p = u.dropWhile p := by
  induction l with
  | nil => simp
  | cons a l ih =>
    have ha : p a = true := h a (by simp)
    simp only [List.cons_append, List.dropWhile_cons, ha, if_true]
    exact ih fun c hc => h c (by simp [hc])

theorem takeWhile_append_of_ne {α} (p : α → Bool) {l : List α} (u : List α)
    (h : l.dropWhile p ≠ []) :
    (l ++ u).takeWhile p = l.takeWhile p := by
  induction l with
  | nil => simp [List.dropWhile] at h
  | cons a l ih =>
    by_cases ha : p a = true
    · simp only [List.dropWhile_cons, ha, if_true] at h
      simp only [List.cons_append, List.takeWhile_cons, ha, if_true]
      rw [ih h]
    · have ha2 : p a = false := by
        cases hpa : p a with
        | true => exact absurd hpa ha
        | false => rfl
      simp [List.takeWhile_cons, ha2]

theorem dropWhile_append_of_ne {α} (p : α → Bool) {l : List α} (u : List α)
    (h : l.dropWhile p ≠ []) :
    (l ++ u).dropWhile p = l.dropWhile p ++ u := by
  induction l with
  | nil => simp [List.dropWhile] at h
  | cons a l ih =>
    by_cases ha : p a = true
    · simp only [List.dropWhile_cons, ha, if_true] at h
      simp only [List.cons_append, List.dropWhile_cons, ha, if_true]
      exact ih h
    · have ha2 : p a = false := by
        cases hpa : p a with
        | true => exact absurd hpa ha
        | false => rfl
      simp [List.dropWhile_cons, ha2]

theorem dropLit_eq_some_iff : ∀ {w s r : List Char},
    dropLit w s = some r ↔ s = w ++ r := by
  intro w
  induction w with
  | nil =>
    intro s r
    simp [dropLit]
  | cons a ws ih =>
    intro s r
    cases s with
    | nil => simp [dropLit]
    | cons c cs =>
      by_cases h : c = a
      · subst h
        simp [dropLit, ih]
      · simp [dropLit, h]

theorem dropLit_self (w r : List Char) : dropLit w (w ++ r) = some r :=
  dropLit_eq_some_iff.mpr rfl

theorem isEmpty_false_of_ne_nil {α} {l : List α} (h : l ≠ []) :
    l.isEmpty = false := by
  cases l with
  | nil => exact absurd rfl h
  | cons a t => rfl

theorem expectChar_eq_some {c : Char} {s r : List Char} :
    expectChar c s = some r ↔ s = c :: r := by
  cases s with
  | nil => simp [expectChar]
  | cons a rest =>
    by_cases h : a = c
    · subst h; simp [expectChar]
    · simp [expectChar, h]

theorem expectChar_cons_self (c : Char) (l : List Char) :
    expectChar c (c :: l) = some l := by
  simp [expectChar]

theorem matchKey_link (ups ds rest : List Char) (hu : ups ≠ [])
    (hua : ∀ c ∈ ups, c.isUpper = true) (hd : ds ≠ [])
    (hda : ∀ c ∈ ds, c.isDigit = true) :
    matchKey (ups ++ '-' :: (ds ++ ']' :: rest)) = some (ups ++ '-' :: ds) := by
  have hdash : ('-' : Char).isUpper = false := by decide
  have hrb : (']' : Char).isDigit = false := by decide
  unfold matchKey
  rw [takeWhile_append_of_all _ _ hua, dropWhile_append_of_all _ _ hua]
  simp only [List.takeWhile_cons, List.dropWhile_cons, hdash, if_false,
    List.append_nil, Bool.false_eq_true, ite_false]
  rw [isEmpty_false_of_ne_nil hu]
  simp only [Bool.false_eq_true, if_false, ite_false, expectChar_cons_self,
    Option.some_bind]
  rw [takeWhile_append_of_all _ _ hda, dropWhile_append_of_all _ _ hda]
  simp only [List.takeWhile_cons, List.dropWhile_cons, hrb, if_false,
    List.append_nil, Bool.false_eq_true, ite_false]
  rw [isEmpty_false_of_ne_nil hd]
  simp only [Bool.false_eq_true, if_false, ite_false, expectChar_cons_self,
    Option.some_bind]

theorem matchJiraAt_link (ups ds url t : List Char) (hu : ups ≠ [])
    (hua : ∀ c ∈ ups, c.isUpper = true) (hd : ds ≠ [])
    (hda : ∀ c ∈ ds, c.isDigit = true) :
    matchJiraAt (linkChars (ups ++ '-' :: ds) url ++ t) = some (ups ++ '-' :: ds) := by
  have hsp : isJsSpace ' ' = true := by decide
  have hlb : isJsSpace '[' = false := by decide
  unfold linkChars matchJiraAt
  rw [List.append_assoc, dropLit_self]
  simp only [Option.some_bind]
  unfold matchTail
  simp only [List.cons_append, List.dropWhile_cons, hsp, hlb, if_true, if_false,
    Bool.false_eq_true, ite_false, expectChar_cons_self, Option.some_bind]
  have hsh : ((ups ++ '-' :: ds) ++ ']' :: '(' :: (url ++ [')'])) ++ t
      = ups ++ '-' :: (ds ++ ']' :: ('(' :: (url ++ ')' :: t))) := by simp
  rw [hsh]
  exact matchKey_link ups ds _ hu hua hd hda

theorem matchKey_stable (c0 : Char) {w v k : List Char}
    (hup : c0.isUpper = false) (hdash : c0 ≠ '-') (hdig : c0.isDigit = false)
    (hrb : c0 ≠ ']')
    (h : matchKey (w ++ c0 :: v) = some k) :
    ∀ t, matchKey (w ++ t) = some k := by
  intro t
  by_cases hall : ∀ c ∈ w, c.isUpper = true
  · exfalso
    unfold matchKey at h
    rw [takeWhile_append_of_all _ _ hall, dropWhile_append_of_all _ _ hall] at h
    simp only [List.takeWhile_cons, List.dropWhile_cons, hup, if_false,
      Bool.false_eq_true, ite_false, List.append_nil] at h
    split at h
    · exact Option.noConfusion h
    · rw [Option.bind_eq_some] at h
      obtain ⟨r5, hx, _⟩ := h
      rw [expectChar_eq_some] at hx
      injection hx with e1 _
      exact hdash e1
  · have hne : w.dropWhile Char.isUpper ≠ [] :=
      fun hnil => hall (List.dropWhile_eq_nil_iff.mp hnil)
    unfold matchKey at h ⊢
    rw [takeWhile_append_of_ne _ _ hne, dropWhile_append_of_ne _ _ hne] at h ⊢
    split at h
    · exact Option.noConfusion h
    · rename_i hEmp
      rw [Option.bind_eq_some] at h
      obtain ⟨r5, hx, h⟩ := h
      rw [expectChar_eq_some] at hx
      cases hdw : w.dropWhile Char.isUpper with
      | nil => exact absurd hdw hne
      | cons d2 w2 =>
        rw [hdw] at hx
        simp only [List.cons_append] at hx
        injection hx with e1 e2
        by_cases hall2 : ∀ c ∈ w2, c.isDigit = true
        · exfalso
          rw [← e2] at h
          rw [takeWhile_append_of_all _ _ hall2, dropWhile_append_of_all _ _ hall2] at h
          simp only [List.takeWhile_cons, List.dropWhile_cons, hdig, if_false,
            Bool.false_eq_true, ite_false, List.append_nil] at h
          split at h
          · exact Option.noConfusion h
          · rw [Option.bind_eq_some] at h
            obtain ⟨r7, hx2, _⟩ := h
            rw [expectChar_eq_some] at hx2
            injection hx2 with e3 _
            exact hrb e3
        · have hne2 : w2.dropWhile Char.isDigit ≠ [] :=
            fun hnil => hall2 (List.dropWhile_eq_nil_iff.mp hnil)
          rw [← e2] at h
          rw [takeWhile_append_of_ne _ _ hne2, dropWhile_append_of_ne _ _ hne2] at h
          split at h
          · exact Option.noConfusion h
          · rename_i hEmp2
            rw [Option.bind_eq_some] at h
            obtain ⟨r7, hx2, h⟩ := h
            rw [expectChar_eq_some] at hx2
            cases hdw2 : w2.dropWhile Char.isDigit with
            | nil => exact absurd hdw2 hne2
            | cons d3 w3 =>
              rw [hdw2] at hx2
              simp only [List.cons_append] at hx2
              injection hx2 with e3 e4
              rw [if_neg hEmp]
              simp only [List.cons_append, e1, expectChar_cons_self,
                Option.some_bind]
              rw [takeWhile_append_of_ne _ _ hne2,
                dropWhile_append_of_ne _ _ hne2, hdw2, if_neg hEmp2]
              simp only [List.cons_append, e3, expectChar_cons_self,
                Option.some_bind]
              exact h

theorem matchTail_stable (c : List Char) {z k : List Char}
    (h : matchTail (c ++ '\n' :: '\n' :: '*' :: z) = some k) :
    ∀ t, matchTail (c ++ t) = some k := by
  have h1 : isJsSpace '\n' = true := by decide
  have h2 : isJsSpace '*' = false := by decide
  intro t
  by_cases hall : ∀ ch ∈ c, isJsSpace ch = true
  · exfalso
    unfold matchTail at h
    rw [dropWhile_append_of_all _ _ hall] at h
    simp only [List.dropWhile_cons, h1, h2, if_true, Bool.false_eq_true,
      ite_false, if_false] at h
    rw [Option.bind_eq_some] at h
    obtain ⟨r3, hx, _⟩ := h
    rw [expectChar_eq_some] at hx
    injection hx with e1 _
    exact absurd e1 (by decide)
  · have hne : c.dropWhile isJsSpace ≠ [] :=
      fun hnil => hall (List.dropWhile_eq_nil_iff.mp hnil)
    unfold matchTail at h ⊢
    rw [dropWhile_append_of_ne _ _ hne] at h ⊢
    rw [Option.bind_eq_some] at h
    obtain ⟨r3, hx, h⟩ := h
    rw [expectChar_eq_some] at hx
    cases hdw : c.dropWhile isJsSpace with
    | nil => exact absurd hdw hne
    | cons d w =>
      rw [hdw] at hx
      simp only [List.cons_append] at hx
      injection hx with e1 e2
      rw [← e2] at h
      have hstep := matchKey_stable '\n' (by decide) (by decide)
        (by decide) (by decide) h t
      simp only [List.cons_append, e1, expectChar_cons_self, Option.some_bind]
      exact hstep

theorem matchJiraAt_stable (x : List Char) {z k : List Char}
    (h : matchJiraAt (x ++ '\n' :: '\n' :: '*' :: z) = some k) :
    ∀ t, matchJiraAt (x ++ t) = some k := by
  intro t
  unfold matchJiraAt at h ⊢
  rw [Option.bind_eq_some] at h
  obtain ⟨r1, hd, h⟩ := h
  have hx := dropLit_eq_some_iff.mp hd
  rcases List.append_eq_append_iff.mp hx with ⟨a, ha1, ha2⟩ | ⟨c, hc1, hc2⟩
  · cases a with
    | nil =>
      rw [List.append_nil] at ha1
      rw [List.nil_append] at ha2
      subst ha1
      rw [← ha2] at h
      have hk := matchTail_stable [] (by simpa using h) t
      rw [dropLit_self]
      simpa using hk
    | cons a0 a2 =>
      exfalso
      rw [List.cons_append] at ha2
      injection ha2 with e1 _
      have hmem : '\n' ∈ litJira := by
        rw [ha1, ← e1]
        exact List.mem_append_right _ (List.mem_cons_self _ _)
      exact absurd hmem (by decide)
  · subst hc1
    subst hc2
    have hk := matchTail_stable c h t
    rw [List.append_assoc, dropLit_self]
    simpa using hk

theorem matchJiraAt_cons_ne {c : Char} (s : List Char) (h : c ≠ '*') :
    matchJiraAt (c :: s) = none := by
  unfold matchJiraAt
  rw [show litJira = '*' :: "*Jira**:".data from by decide]
  simp [dropLit, h]

theorem findJiraMatch_seam : ∀ (x : List Char) {t0 z k : List Char},
    findJiraMatch (x ++ t0) = none →
    matchJiraAt ('*' :: z) = some k →
    findJiraMatch (x ++ '\n' :: '\n' :: '*' :: z) = some k := by
  intro x
  induction x with
  | nil =>
    intro t0 z k _ hlink
    rw [List.nil_append]
    unfold findJiraMatch
    rw [matchJiraAt_cons_ne _ (by decide)]
    unfold findJiraMatch
    rw [matchJiraAt_cons_ne _ (by decide)]
    unfold findJiraMatch
    rw [hlink]
  | cons a x2 ih =>
    intro t0 z k hnone hlink
    rw [List.cons_append] at hnone
    unfold findJiraMatch at hnone
    rw [List.cons_append]
    unfold findJiraMatch
    cases hma : matchJiraAt (a :: (x2 ++ '\n' :: '\n' :: '*' :: z)) with
    | some kk =>
      exfalso
      have hstable := matchJiraAt_stable (a :: x2)
        (by rw [List.cons_append]; exact hma) t0
      rw [List.cons_append] at hstable
      rw [hstable] at hnone
      exact Option.noConfusion hnone
    | none =>
      cases hma0 : matchJiraAt (a :: (x2 ++ t0)) with
      | some kk => rw [hma0] at hnone; exact Option.noConfusion hnone
      | none =>
        rw [hma0] at hnone
        exact ih hnone hlink

theorem splitOnChar_ne_nil (sep : Char) (l : List Char) :
    splitOnChar sep l ≠ [] := by
  induction l with
  | nil => simp [splitOnChar]
  | cons c rest ih =>
    unfold splitOnChar
    by_cases h : c = sep
    · simp [h]
    · simp only [h, beq_iff_eq, if_false, ite_false]
      cases hS : splitOnChar sep rest with
      | nil => simp
      | cons s ss => simp

theorem join_split (sep : Char) (l : List Char) :
    joinWithChar sep (splitOnChar sep l) = l := by
  induction l with
  | nil => rfl
  | cons c rest ih =>
    unfold splitOnChar
    by_cases h : c = sep
    · rw [if_pos (by simp [h])]
      cases hS : splitOnChar sep rest with
      | nil => exact absurd hS (splitOnChar_ne_nil sep rest)
      | cons s ss =>
        rw [hS] at ih
        simpa [joinWithChar, h] using ih
    · simp only [h, beq_iff_eq, if_false, ite_false]
      cases hS : splitOnChar sep rest with
      | nil => exact absurd hS (splitOnChar_ne_nil sep rest)
      | cons s ss =>
        rw [hS] at ih
        cases ss with
        | nil =>
          simp only [joinWithChar] at ih ⊢
          rw [ih]
        | cons s2 ss2 =>
          simp only [joinWithChar] at ih ⊢
          rw [List.cons_append, ih]

theorem joinWithChar_append (sep : Char) : ∀ (P Q : List (List Char)),
    P ≠ [] → Q ≠ [] →
    joinWithChar sep (P ++ Q) = joinWithChar sep P ++ sep :: joinWithChar sep Q := by
  intro P
  induction P with
  | nil => intro Q h hQ; exact absurd rfl h
  | cons p P2 ih =>
    intro Q hP hQ
    cases P2 with
    | nil =>
      cases Q with
      | nil => exact absurd rfl hQ
      | cons q Q2 => simp [joinWithChar]
    | cons p2 P3 =>
      have hrec := ih Q (by simp) hQ
      simp only [List.cons_append] at hrec ⊢
      simp only [joinWithChar]
      rw [hrec]
      simp

theorem insertIndexAux_pos (ls : List (List Char)) (i : Nat) :
    1 ≤ insertIndexAux ls i := by
  rw [insertIndexAux_spec]
  cases findHeadingIdx ls with
  | none => simp
  | some j =>
    show 1 <= i + j + 1 + countBlanks (ls.drop (j + 1))
    omega

theorem jiraLinkLine_data (key url : String) :
    (jiraLinkLine key url).data = linkChars key.data url.data := by
  have h1 : ("**Jira**: [" : String).data = litJira ++ [' ', '['] := by decide
  have h2 : ("](" : String).data = [']', '('] := by decide
  have h3 : (")" : String).data = [')'] := by decide
  have h0 : litJira = ['*', '*', 'J', 'i', 'r', 'a', '*', '*', ':'] := by decide
  unfold jiraLinkLine linkChars
  simp [String.data_append, h1, h2, h3, h0]

theorem findJiraMatch_insert_general (txt urld ups ds : List Char)
    (hu : ups ≠ []) (hua : ∀ c ∈ ups, c.isUpper = true)
    (hd : ds ≠ []) (hda : ∀ c ∈ ds, c.isDigit = true)
    (hnone : findJiraMatch txt = none) :
    findJiraMatch (joinWithChar '\n'
        ((splitOnChar '\n' txt).take (insertIndexAux (splitOnChar '\n' txt) 0)
          ++ [[], linkChars (ups ++ '-' :: ds) urld]
          ++ (splitOnChar '\n' txt).drop (insertIndexAux (splitOnChar '\n' txt) 0)))
      = some (ups ++ '-' :: ds) := by
  set L := splitOnChar '\n' txt with hL
  set n := insertIndexAux L 0 with hn
  have hjoin_all : joinWithChar '\n' L = txt := join_split '\n' txt
  have hLne : L ≠ [] := splitOnChar_ne_nil '\n' txt
  have hnpos : 1 ≤ n := insertIndexAux_pos L 0
  have hPne : L.take n ≠ [] := by
    intro h0
    rcases List.take_eq_nil_iff.mp h0 with h | h
    · omega
    · exact hLne h
  obtain ⟨t0, r, hcontent, hnew⟩ :
      ∃ t0 r, txt = joinWithChar '\n' (L.take n) ++ t0 ∧
        joinWithChar '\n'
            (L.take n ++ [[], linkChars (ups ++ '-' :: ds) urld] ++ L.drop n)
          = joinWithChar '\n' (L.take n)
              ++ '\n' :: '\n' :: (linkChars (ups ++ '-' :: ds) urld ++ r) := by
    cases hS : L.drop n with
    | nil =>
      refine ⟨[], [], ?_, ?_⟩
      · have htk : L = L.take n := by
          conv_lhs => rw [← List.take_append_drop n L]
          rw [hS, List.append_nil]
        rw [List.append_nil, ← hjoin_all, ← htk]
      · rw [List.append_nil, List.append_nil,
          joinWithChar_append '\n' _ _ hPne (by simp)]
        simp [joinWithChar]
    | cons s ss =>
      refine ⟨'\n' :: joinWithChar '\n' (s :: ss),
        '\n' :: joinWithChar '\n' (s :: ss), ?_, ?_⟩
      · rw [← hjoin_all]
        conv_lhs => rw [← List.take_append_drop n L, hS]
        rw [joinWithChar_append '\n' _ _ hPne (by simp)]
      · rw [List.append_assoc, joinWithChar_append '\n' _ _ hPne (by simp)]
        simp [joinWithChar]
  have hnoneA : findJiraMatch (joinWithChar '\n' (L.take n) ++ t0) = none := by
    rw [← hcontent]
    exact hnone
  have hm : matchJiraAt (linkChars (ups ++ '-' :: ds) urld ++ r)
      = some (ups ++ '-' :: ds) := matchJiraAt_link ups ds urld r hu hua hd hda
  have hlit : litJira = '*' :: "*Jira**:".data := by decide
  obtain ⟨z, hz⟩ : ∃ z, linkChars (ups ++ '-' :: ds) urld ++ r = '*' :: z :=
    ⟨"*Jira**:".data ++ (' ' :: '[' :: ((ups ++ '-' :: ds) ++ ']' :: '(' :: (urld ++ [')']))) ++ r,
      by unfold linkChars; rw [hlit]; simp⟩
  rw [hnew, hz]
  rw [hz] at hm
  exact findJiraMatch_seam _ hnoneA hm

/-- C4: round-trip — for text with no Jira-link marker and a key of the form
`[A-Z]+-[0-9]+`, inserting the link line (a blank line then the link line at
the computed insertion point, all other lines preserved) and then applying
`hasJiraLink` to the result returns exactly the inserted key. -/
theorem hasJiraLink_insert_roundtrip (content url : String) (ups ds : List Char)
    (hu : ups ≠ []) (hua : ∀ c ∈ ups, c.isUpper = true)
    (hd : ds ≠ []) (hda : ∀ c ∈ ds, c.isDigit = true)
    (hnone : hasJiraLink content = none) :
    hasJiraLink (insertJiraLink content
        (jiraLinkLine (String.mk (ups ++ '-' :: ds)) url))
      = some (String.mk (ups ++ '-' :: ds)) := by
  unfold hasJiraLink at hnone
  have h0 : findJiraMatch content.data = none := Option.map_eq_none'.mp hnone
  have hgen := findJiraMatch_insert_general content.data url.data ups ds
    hu hua hd hda h0
  unfold hasJiraLink
  have hdata : (insertJiraLink content
        (jiraLinkLine (String.mk (ups ++ '-' :: ds)) url)).data
      = joinWithChar '\n'
          ((splitOnChar '\n' content.data).take
              (insertIndexAux (splitOnChar '\n' content.data) 0)
            ++ [[], linkChars (ups ++ '-' :: ds) url.data]
            ++ (splitOnChar '\n' content.data).drop
                (insertIndexAux (splitOnChar '\n' content.data) 0)) := by
    rw [show (insertJiraLink content
          (jiraLinkLine (String.mk (ups ++ '-' :: ds)) url)).data
        = joinWithChar '\n'
            ((splitOnChar '\n' content.data).take
                (insertIndexAux (splitOnChar '\n' content.data) 0)
              ++ [[], (jiraLinkLine (String.mk (ups ++ '-' :: ds)) url).data]
              ++ (splitOnChar '\n' content.data).drop
                  (insertIndexAux (splitOnChar '\n' content.data) 0)) from rfl,
      jiraLinkLine_data]
  rw [hdata, hgen]
  rfl

/-- Witness for C4: a concrete round-trip through the inserter, via the
theorem applied at a concrete feature text, key AB-12 and url. -/
theorem hasJiraLink_insert_roundtrip_witness :
    hasJiraLink (insertJiraLink "# Title\n\nSome body text."
        (jiraLinkLine (String.mk (['A', 'B'] ++ '-' :: ['1', '2']))
          "https://jira.example.com/browse/AB-12"))
      = some (String.mk (['A', 'B'] ++ '-' :: ['1', '2'])) :=
  hasJiraLink_insert_roundtrip "# Title\n\nSome body text."
    "https://jira.example.com/browse/AB-12" ['A', 'B'] ['1', '2']
    (by decide) (by decide) (by decide) (by decide) (by decide)

/-! C9 — checkDirectoryExists. -/

theorem walkSegments_error_iff (r : DirHandle) (segs : List String) (e : JsError) :
    walkSegments r segs = Except.error e ↔
      ∃ i, ∃ h : i < segs.length, ∃ d,
        walkSegments r (segs.take i) = Except.ok d ∧
        DirHandle.getDir d (segs.get ⟨i, h⟩) = Except.error e := by
  induction segs generalizing r with
  | nil => simp [walkSegments]
  | cons s rest ih =>
    constructor
    · intro h
      unfold walkSegments at h
      cases hg : DirHandle.getDir r s with
      | error e2 =>
        rw [hg] at h
        injection h with h
        subst h
        exact ⟨0, by simp, r, by simp [walkSegments], by simpa using hg⟩
      | ok d2 =>
        rw [hg] at h
        obtain ⟨i, hi, d, hw, hgd⟩ := (ih d2).mp h
        refine ⟨i + 1, by simpa using hi, d, ?_, ?_⟩
        · rw [List.take_succ_cons]
          unfold walkSegments
          rw [hg]
          exact hw
        · simpa using hgd
    · rintro ⟨i, hi, d, hw, hgd⟩
      cases i with
      | zero =>
        simp only [List.take_zero, walkSegments] at hw
        injection hw with hw
        subst hw
        unfold walkSegments
        rw [show (s :: rest).get ⟨0, hi⟩ = s from rfl] at hgd
        rw [hgd]
      | succ i2 =>
        rw [List.take_succ_cons] at hw
        unfold walkSegments at hw ⊢
        cases hg : DirHandle.getDir r s with
        | error e2 =>
          rw [hg] at hw
          exact Except.noConfusion hw
        | ok d2 =>
          rw [hg] at hw
          refine (ih d2).mpr ⟨i2, by simpa using hi, d, hw, ?_⟩
          simpa using hgd

/-- C9: the existence check walks the segments in order; it returns false
exactly when some step fails with a not-found error; any other failure kind
is re-raised to the caller rather than reported as false; a complete walk
returns true. -/
theorem checkDirectoryExists_spec (root : DirHandle) (segs : List String) :
    ((∃ d, walkSegments root segs = Except.ok d) →
        checkDirectoryExists root segs = Except.ok true)
  ∧ (checkDirectoryExists root segs = Except.ok false ↔
      ∃ i, ∃ h : i < segs.length, ∃ d e,
        walkSegments root (segs.take i) = Except.ok d ∧
        DirHandle.getDir d (segs.get ⟨i, h⟩) = Except.error e ∧
        e.name = "NotFoundError")
  ∧ (∀ e : JsError, e.name ≠ "NotFoundError" →
      (checkDirectoryExists root segs = Except.error e ↔
        ∃ i, ∃ h : i < segs.length, ∃ d,
          walkSegments root (segs.take i) = Except.ok d ∧
          DirHandle.getDir d (segs.get ⟨i, h⟩) = Except.error e)) := by
  refine ⟨?_, ?_, ?_⟩
  · rintro ⟨d, hd⟩
    unfold checkDirectoryExists
    rw [hd]
  · constructor
    · intro h
      unfold checkDirectoryExists at h
      cases hw : walkSegments root segs with
      | ok d => rw [hw] at h; simp at h
      | error e =>
        rw [hw] at h
        by_cases hn : e.name = "NotFoundError"
        · obtain ⟨i, hi, d, h1, h2⟩ := (walkSegments_error_iff root segs e).mp hw
          exact ⟨i, hi, d, e, h1, h2, hn⟩
        · simp [hn] at h
    · rintro ⟨i, hi, d, e, h1, h2, h3⟩
      have hw : walkSegments root segs = Except.error e :=
        (walkSegments_error_iff root segs e).mpr ⟨i, hi, d, h1, h2⟩
      unfold checkDirectoryExists
      rw [hw]
      simp [h3]
  · intro e he
    constructor
    · intro h
      unfold checkDirectoryExists at h
      cases hw : walkSegments root segs with
      | ok d => rw [hw] at h; exact Except.noConfusion h
      | error e2 =>
        rw [hw] at h
        by_cases hn : e2.name = "NotFoundError"
        · simp [hn] at h
        · simp [hn] at h
          rw [h] at hw
          exact (walkSegments_error_iff root segs e).mp hw
    · rintro ⟨i, hi, d, h1, h2⟩
      have hw : walkSegments root segs = Except.error e :=
        (walkSegments_error_iff root segs e).mpr ⟨i, hi, d, h1, h2⟩
      unfold checkDirectoryExists
      rw [hw]
      simp [he]

/-- Witness for C9: a missing segment yields false; a permission error from
the walk is re-raised. -/
theorem checkDirectoryExists_spec_witness :
    checkDirectoryExists sampleRoot ["missing"] = Except.ok false ∧
    checkDirectoryExists permRoot ["x"] = Except.error ⟨"NotAllowedError"⟩ :=
  ⟨(checkDirectoryExists_spec sampleRoot ["missing"]).2.1.mpr
      ⟨0, by decide, sampleRoot, ⟨"NotFoundError"⟩, rfl, rfl, rfl⟩,
    ((checkDirectoryExists_spec permRoot ["x"]).2.2 ⟨"NotAllowedError"⟩
        (by decide)).mpr
      ⟨0, by decide, permRoot, rfl, rfl⟩⟩

/-! Unfolding equations for the scanner loop. -/

theorem scanYield_nil (fuel : Option Nat) (p : String) :
    scanYield [] fuel p = [] := rfl

theorem scanYield_cons_zero (e : FsNode) (rest : List FsNode) (p : String) :
    scanYield (e :: rest) (some 0) p = [] := rfl

theorem scanYield_cons_none (e : FsNode) (rest : List FsNode) (p : String) :
    scanYield (e :: rest) none p =
      if isAllowedEntry e.nameOf e.kindOf p then
        scanEntry e p :: scanYield rest none p
      else scanYield rest none p := by
  cases e <;> rfl

theorem scanYield_cons_succ (e : FsNode) (rest : List FsNode) (k : Nat)
    (p : String) :
    scanYield (e :: rest) (some (k + 1)) p =
      if isAllowedEntry e.nameOf e.kindOf p then
        scanEntry e p :: scanYield rest (some k) p
      else scanYield rest (some k) p := by
  cases e <;> rfl

/-! C1 — node path discipline. -/

theorem string_append_slash_ne_empty (p n : String) : p ++ "/" ++ n ≠ "" := by
  intro h0
  have h1 := congrArg String.data h0
  simp [String.data_append] at h1

theorem joinPath_of_ne (p n : String) (hp : p ≠ "") :
    joinPath p n = p ++ "/" ++ n := by
  simp [joinPath, hp]

theorem joinPath_ne_empty (p n : String) (hp : p ≠ "") : joinPath p n ≠ "" := by
  rw [joinPath_of_ne p n hp]
  exact string_append_slash_ne_empty p n

theorem scanDirectory_nameOf (e : FsNode) (p : String) :
    (scanDirectory e p).nameOf = e.nameOf := by
  cases e <;> simp [scanDirectory, TNode.nameOf, FsNode.nameOf]

theorem sizeOf_fs_pos (e : FsNode) : 1 ≤ sizeOf e := by
  cases e <;> simp_arith

theorem innerPathsOkList_iff (pa : String) (cs : List TNode) :
    innerPathsOkList pa cs = true ↔
      ∀ c ∈ cs, TNode.pathOf c = pa ++ "/" ++ TNode.nameOf c
        ∧ innerPathsOk c = true := by
  induction cs with
  | nil => simp [innerPathsOkList]
  | cons c cs ih =>
    simp [innerPathsOkList, Bool.and_eq_true, ih, beq_iff_eq, and_assoc]

theorem scan_paths_aux : ∀ N : Nat,
    (∀ (e : FsNode) (p : String), sizeOf e ≤ N → p ≠ "" →
      (scanDirectory e p).pathOf = p ∧ innerPathsOk (scanDirectory e p) = true)
    ∧ (∀ (es : List FsNode) (fuel : Option Nat) (p : String),
        sizeOf es ≤ N → p ≠ "" →
        ∀ c ∈ scanYield es fuel p,
          TNode.pathOf c = p ++ "/" ++ TNode.nameOf c
            ∧ innerPathsOk c = true) := by
  intro N
  induction N with
  | zero =>
    constructor
    · intro e p hsz
      exfalso
      have := sizeOf_fs_pos e
      omega
    · intro es fuel p hsz
      exfalso
      cases es with
      | nil => simp at hsz
      | cons a l => simp at hsz
  | succ N ih =>
    obtain ⟨ihP, ihQ⟩ := ih
    constructor
    · intro e p hsz hp
      have hpb : (p == "") = false := beq_eq_false_iff_ne.mpr hp
      cases e with
      | file n =>
        exact ⟨by simp [scanDirectory, TNode.pathOf, hpb],
          by simp [scanDirectory, innerPathsOk]⟩
      | dir n entries failAt =>
        have hsz2 : sizeOf entries ≤ N := by
          simp at hsz
          omega
        constructor
        · simp [scanDirectory, TNode.pathOf, hpb]
        · simp only [scanDirectory, innerPathsOk, hpb, Bool.false_eq_true,
            if_false, ite_false]
          rw [innerPathsOkList_iff]
          intro c hc
          have hc2 : c ∈ scanYield entries failAt p := by
            simpa [sortChildren, List.mem_insertionSort] using hc
          exact ihQ entries failAt p hsz2 hp c hc2
    · intro es fuel p hsz hp c hc
      cases es with
      | nil =>
        rw [show scanYield [] fuel p = [] from rfl] at hc
        exact absurd hc (List.not_mem_nil c)
      | cons e rest =>
        have h1e := sizeOf_fs_pos e
        have hsze : sizeOf e ≤ N := by
          simp at hsz
          omega
        have hszr : sizeOf rest ≤ N := by
          simp at hsz
          omega
        have key : ∀ f2 : Option Nat,
            c ∈ (if isAllowedEntry e.nameOf e.kindOf p then
                  scanEntry e p :: scanYield rest f2 p
                 else scanYield rest f2 p) →
            TNode.pathOf c = p ++ "/" ++ TNode.nameOf c
              ∧ innerPathsOk c = true := by
          intro f2 hc2
          by_cases hal : isAllowedEntry e.nameOf e.kindOf p = true
          · rw [if_pos hal] at hc2
            rcases List.mem_cons.mp hc2 with rfl | hc3
            · cases e with
              | file n0 =>
                refine ⟨?_, by simp [scanEntry, innerPathsOk]⟩
                simp [scanEntry, TNode.pathOf, TNode.nameOf, FsNode.nameOf,
                  joinPath_of_ne p n0 hp]
              | dir n0 es0 f0 =>
                have hq : joinPath p (FsNode.dir n0 es0 f0).nameOf ≠ "" :=
                  joinPath_ne_empty _ _ hp
                have hP := ihP (FsNode.dir n0 es0 f0) _ hsze hq
                refine ⟨?_, by simpa [scanEntry] using hP.2⟩
                show (scanEntry (FsNode.dir n0 es0 f0) p).pathOf = _
                rw [show scanEntry (FsNode.dir n0 es0 f0) p
                    = scanDirectory (FsNode.dir n0 es0 f0)
                        (joinPath p (FsNode.dir n0 es0 f0).nameOf) from rfl]
                rw [hP.1, scanDirectory_nameOf, joinPath_of_ne _ _ hp]
            · exact ihQ rest f2 p hszr hp c hc3
          · rw [if_neg hal] at hc2
            exact ihQ rest f2 p hszr hp c hc2
        rcases fuel with _ | k
        · rw [scanYield_cons_none] at hc
          exact key none hc
        · cases k with
          | zero =>
            rw [scanYield_cons_zero] at hc
            exact absurd hc (List.not_mem_nil c)
          | succ k2 =>
            rw [scanYield_cons_succ] at hc
            exact key (some k2) hc

theorem scan_paths_all (e : FsNode) (p : String) (hp : p ≠ "") :
    (scanDirectory e p).pathOf = p ∧ innerPathsOk (scanDirectory e p) = true :=
  (scan_paths_aux (sizeOf e)).1 e p (Nat.le_refl _) hp

theorem scanYield_paths (es : List FsNode) (fuel : Option Nat) (p : String)
    (hp : p ≠ "") :
    ∀ c ∈ scanYield es fuel p,
      TNode.pathOf c = p ++ "/" ++ TNode.nameOf c ∧ innerPathsOk c = true :=
  (scan_paths_aux (sizeOf es)).2 es fuel p (Nat.le_refl _) hp

theorem isAllowedEntry_root (n k : String)
    (h : isAllowedEntry n k "" = true) :
    k = "directory" ∧ (n = "projects" ∨ n = "features") := by
  unfold isAllowedEntry at h
  simp [getPathSegments] at h
  exact h

theorem scanYield_root (es : List FsNode) (fuel : Option Nat) :
    ∀ c ∈ scanYield es fuel "",
      TNode.pathOf c = TNode.nameOf c ∧ innerPathsOk c = true := by
  induction es generalizing fuel with
  | nil =>
    intro c hc
    rw [show scanYield [] fuel "" = [] from rfl] at hc
    exact absurd hc (List.not_mem_nil c)
  | cons e rest ih =>
    intro c hc
    have key : ∀ f2 : Option Nat,
        c ∈ (if isAllowedEntry e.nameOf e.kindOf "" then
              scanEntry e "" :: scanYield rest f2 ""
             else scanYield rest f2 "") →
        TNode.pathOf c = TNode.nameOf c ∧ innerPathsOk c = true := by
      intro f2 hc2
      by_cases hal : isAllowedEntry e.nameOf e.kindOf "" = true
      · rw [if_pos hal] at hc2
        rcases List.mem_cons.mp hc2 with rfl | hc3
        · obtain ⟨hkind, hname⟩ := isAllowedEntry_root _ _ hal
          cases e with
          | file n0 => simp [FsNode.kindOf] at hkind
          | dir n0 es0 f0 =>
            have hn0 : n0 ≠ "" := by
              simp only [FsNode.nameOf] at hname
              rcases hname with h | h <;> simp [h]
            have hP := scan_paths_all (FsNode.dir n0 es0 f0) n0 hn0
            have hent : scanEntry (FsNode.dir n0 es0 f0) ""
                = scanDirectory (FsNode.dir n0 es0 f0) n0 := rfl
            refine ⟨?_, ?_⟩
            · rw [hent, hP.1, scanDirectory_nameOf]
              rfl
            · rw [hent]
              exact hP.2
        · exact ih f2 c hc3
      · rw [if_neg hal] at hc2
        exact ih f2 c hc2
    rcases fuel with _ | k
    · rw [scanYield_cons_none] at hc
      exact key none hc
    · cases k with
      | zero =>
        rw [scanYield_cons_zero] at hc
        exact absurd hc (List.not_mem_nil c)
      | succ k2 =>
        rw [scanYield_cons_succ] at hc
        exact key (some k2) hc

/-- C1 counterexample: the claim says the root node's path is the empty
string, but on a concrete empty root directory handle named "root" the
scanner records the handle's name as the root path. -/
theorem scanDirectory_root_path_cex :
    (scanDirectory (FsNode.dir "root" [] none) "").pathOf = "root"
      ∧ ("root" : String) ≠ "" :=
  ⟨rfl, by decide⟩

/-- C1 amended: the root node's path is the root handle's name (the code
records `path || dirHandle.name`), the root's children have path equal to
their own name, and below the root every child node's path equals
`parent.path + '/' + child.name`. -/
theorem scanDirectory_paths_amended :
    (∀ (n : String) (entries : List FsNode) (failAt : Option Nat),
      (scanDirectory (FsNode.dir n entries failAt) "").pathOf = n)
  ∧ (∀ (n : String) (entries : List FsNode) (failAt : Option Nat),
      ∀ c ∈ (scanDirectory (FsNode.dir n entries failAt) "").childrenOf,
        TNode.pathOf c = TNode.nameOf c ∧ innerPathsOk c = true)
  ∧ (∀ (e : FsNode) (p : String), p ≠ "" →
      (scanDirectory e p).pathOf = p ∧
      ∀ c ∈ (scanDirectory e p).childrenOf,
        TNode.pathOf c = (scanDirectory e p).pathOf ++ "/" ++ TNode.nameOf c) := by
  refine ⟨fun n entries failAt => rfl, ?_, ?_⟩
  · intro n entries failAt c hc
    have hc2 : c ∈ scanYield entries failAt "" := by
      simpa [scanDirectory, TNode.childrenOf, sortChildren,
        List.mem_insertionSort] using hc
    exact scanYield_root entries failAt c hc2
  · intro e p hp
    have hP := scan_paths_all e p hp
    refine ⟨hP.1, ?_⟩
    intro c hc
    cases e with
    | file n =>
      rw [show (scanDirectory (FsNode.file n) p).childrenOf = [] from rfl] at hc
      exact absurd hc (List.not_mem_nil c)
    | dir n entries failAt =>
      have hc2 : c ∈ scanYield entries failAt p := by
        simpa [scanDirectory, TNode.childrenOf, sortChildren,
          List.mem_insertionSort] using hc
      rw [hP.1]
      exact (scanYield_paths entries failAt p hp c hc2).1

/-- Witness for C1 (amended): a non-root scan records the scan path as the
node path, via the theorem applied at a concrete input. -/
theorem scanDirectory_paths_amended_witness :
    (scanDirectory (FsNode.dir "d" [] none) "features/x").pathOf
      = "features/x" :=
  (scanDirectory_paths_amended.2.2 (FsNode.dir "d" [] none) "features/x"
    (by decide)).1

/-! C2 — failure semantics of the scanner. -/

theorem scanYield_take (es : List FsNode) (k : Nat) (p : String) :
    scanYield es (some k) p = scanYield (es.take k) none p := by
  induction es generalizing k with
  | nil => rw [List.take_nil, scanYield_nil, scanYield_nil]
  | cons e rest ih =>
    cases k with
    | zero => rfl
    | succ k2 =>
      rw [scanYield_cons_succ, List.take_succ_cons, scanYield_cons_none, ih]

theorem scanList_append (es1 es2 : List FsNode) (p : String) :
    scanList (es1 ++ es2) p = scanList es1 p ++ scanList es2 p := by
  induction es1 with
  | nil => rfl
  | cons e rest ih =>
    unfold scanList at ih ⊢
    rw [List.cons_append, scanYield_cons_none, scanYield_cons_none]
    by_cases hal : isAllowedEntry e.nameOf e.kindOf p = true
    · rw [if_pos hal, if_pos hal, ih]
      rfl
    · rw [if_neg hal, if_neg hal, ih]

/-- C2: a directory whose listing throws after `k` yields is caught at that
directory's level and returns a normal node whose children are exactly the
(sorted) scan of the entries collected before the failure; scanning is
per-entry independent, so a failing entry never affects its siblings; in the
concrete three-level scenario a deep failure leaves the sibling feature
subtree fully populated and the root call still returns a tree. -/
theorem scanDirectory_failure_spec :
    (∀ (n : String) (entries : List FsNode) (k : Nat) (p : String),
      scanDirectory (FsNode.dir n entries (some k)) p
        = TNode.dir n (if p == "" then n else p)
            (sortChildren (scanList (entries.take k) p)))
  ∧ (∀ (es1 es2 : List FsNode) (p : String),
      scanList (es1 ++ es2) p = scanList es1 p ++ scanList es2 p)
  ∧ scanDirectory
      (FsNode.dir "root" [
        FsNode.dir "features" [
          FsNode.dir "alpha" [
            FsNode.dir "agents" [
              FsNode.dir "a1" [FsNode.file "status.md",
                FsNode.file "task-instructions.md"] (some 0)] none,
            FsNode.file "feature.md"] none,
          FsNode.dir "beta" [
            FsNode.dir "agents" [
              FsNode.dir "a2" [FsNode.file "status.md"] none] none,
            FsNode.file "feature.md"] none] none] none) ""
      = TNode.dir "root" "root" [
          TNode.dir "features" "features" [
            TNode.dir "alpha" "features/alpha" [
              TNode.dir "agents" "features/alpha/agents" [
                TNode.dir "a1" "features/alpha/agents/a1" []],
              TNode.file "feature.md" "features/alpha/feature.md"],
            TNode.dir "beta" "features/beta" [
              TNode.dir "agents" "features/beta/agents" [
                TNode.dir "a2" "features/beta/agents/a2" [
                  TNode.file "status.md" "features/beta/agents/a2/status.md"]],
              TNode.file "feature.md" "features/beta/feature.md"]]] := by
  refine ⟨?_, scanList_append, by rfl⟩
  intro n entries k p
  show TNode.dir n (if p == "" then n else p)
      (sortChildren (scanYield entries (some k) p)) = _
  rw [scanYield_take]
  rfl

/-- Witness for C2 (the first two conjuncts are universally quantified
without hypotheses; the witness instantiates the truncation equation at a
concrete failing directory). -/
theorem scanDirectory_failure_spec_witness :
    scanDirectory (FsNode.dir "d"
        [FsNode.dir "projects" [] none, FsNode.dir "features" [] none]
        (some 1)) ""
      = TNode.dir "d" "d"
          (sortChildren (scanList
            ([FsNode.dir "projects" [] none,
              FsNode.dir "features" [] none].take 1) "")) :=
  scanDirectory_failure_spec.1 "d"
    [FsNode.dir "projects" [] none, FsNode.dir "features" [] none] 1 ""

/-! C7 — sorting of children. -/

theorem charListLe_total : ∀ x y : List Char,
    charListLe x y = true ∨ charListLe y x = true := by
  intro x
  induction x with
  | nil => intro y; left; rfl
  | cons a as ih =>
    intro y
    cases y with
    | nil => right; rfl
    | cons b bs =>
      by_cases h1 : a.toNat < b.toNat
      · left; simp [charListLe, h1]
      · by_cases h2 : b.toNat < a.toNat
        · right; simp [charListLe, h2]
        · rcases ih bs with h | h
          · left; simp [charListLe, h1, h2, h]
          · right; simp [charListLe, h1, h2, h]

theorem charListLe_trans : ∀ {x y z : List Char},
    charListLe x y = true → charListLe y z = true → charListLe x z = true := by
  intro x
  induction x with
  | nil => intro y z _ _; rfl
  | cons a as ih =>
    intro y z hxy hyz
    cases y with
    | nil => simp [charListLe] at hxy
    | cons b bs =>
      cases z with
      | nil => simp [charListLe] at hyz
      | cons c cs =>
        simp only [charListLe] at hxy hyz ⊢
        split_ifs at hxy hyz ⊢ <;>
          first
            | rfl
            | omega
            | (exact ih hxy hyz)

theorem nodeLe_total : ∀ a b : TNode, nodeLe a b = true ∨ nodeLe b a = true := by
  intro a b
  unfold nodeLe
  cases ha : a.isDirNode <;> cases hb : b.isDirNode <;> simp <;>
    exact charListLe_total _ _

theorem nodeLe_trans : ∀ {a b c : TNode},
    nodeLe a b = true → nodeLe b c = true → nodeLe a c = true := by
  intro a b c hab hbc
  unfold nodeLe at hab hbc ⊢
  cases ha : a.isDirNode <;> cases hb : b.isDirNode <;> cases hc : c.isDirNode <;>
    rw [ha, hb] at hab <;> rw [hb, hc] at hbc <;> simp_all <;>
    exact charListLe_trans hab hbc

theorem sortedListB_of_sorted : ∀ (l : List TNode),
    List.Sorted (fun a b => nodeLe a b = true) l → sortedListB l = true := by
  intro l
  induction l with
  | nil => intro _; rfl
  | cons a rest ih =>
    intro h
    cases rest with
    | nil => rfl
    | cons b rest2 =>
      have h1 : nodeLe a b = true := List.rel_of_sorted_cons h b (by simp)
      have h2 := ih h.of_cons
      simp [sortedListB, h1, h2]

theorem sorted_sortChildren (cs : List TNode) :
    List.Sorted (fun a b => nodeLe a b = true) (sortChildren cs) := by
  haveI : IsTotal TNode (fun a b => nodeLe a b = true) := ⟨nodeLe_total⟩
  haveI : IsTrans TNode (fun a b => nodeLe a b = true) :=
    ⟨fun _ _ _ => nodeLe_trans⟩
  exact List.sorted_insertionSort _ cs

theorem treeSortedList_iff (cs : List TNode) :
    treeSortedList cs = true ↔ ∀ c ∈ cs, treeSorted c = true := by
  induction cs with
  | nil => simp [treeSortedList]
  | cons c cs ih => simp [treeSortedList, Bool.and_eq_true, ih]

theorem scan_sorted_aux : ∀ N : Nat,
    (∀ (e : FsNode) (p : String), sizeOf e ≤ N →
      treeSorted (scanDirectory e p) = true)
    ∧ (∀ (es : List FsNode) (fuel : Option Nat) (p : String), sizeOf es ≤ N →
      ∀ c ∈ scanYield es fuel p, treeSorted c = true) := by
  intro N
  induction N with
  | zero =>
    constructor
    · intro e p hsz
      exfalso
      have := sizeOf_fs_pos e
      omega
    · intro es fuel p hsz
      exfalso
      cases es with
      | nil => simp at hsz
      | cons a l => simp at hsz
  | succ N ih =>
    obtain ⟨ihP, ihQ⟩ := ih
    constructor
    · intro e p hsz
      cases e with
      | file n => rfl
      | dir n entries failAt =>
        have hsz2 : sizeOf entries ≤ N := by
          simp at hsz
          omega
        show treeSorted (TNode.dir n (if p == "" then n else p)
          (sortChildren (scanYield entries failAt p))) = true
        simp only [treeSorted, Bool.and_eq_true]
        constructor
        · exact sortedListB_of_sorted _ (sorted_sortChildren _)
        · rw [treeSortedList_iff]
          intro c hc
          have hc2 : c ∈ scanYield entries failAt p := by
            simpa [sortChildren, List.mem_insertionSort] using hc
          exact ihQ entries failAt p hsz2 c hc2
    · intro es fuel p hsz c hc
      cases es with
      | nil =>
        rw [scanYield_nil] at hc
        exact absurd hc (List.not_mem_nil c)
      | cons e rest =>
        have h1e := sizeOf_fs_pos e
        have hsze : sizeOf e ≤ N := by
          simp at hsz
          omega
        have hszr : sizeOf rest ≤ N := by
          simp at hsz
          omega
        have key : ∀ f2 : Option Nat,
            c ∈ (if isAllowedEntry e.nameOf e.kindOf p then
                  scanEntry e p :: scanYield rest f2 p
                 else scanYield rest f2 p) →
            treeSorted c = true := by
          intro f2 hc2
          by_cases hal : isAllowedEntry e.nameOf e.kindOf p = true
          · rw [if_pos hal] at hc2
            rcases List.mem_cons.mp hc2 with rfl | hc3
            · cases e with
              | file n0 => rfl
              | dir n0 es0 f0 =>
                show treeSorted (scanDirectory (FsNode.dir n0 es0 f0)
                  (joinPath p (FsNode.dir n0 es0 f0).nameOf)) = true
                exact ihP (FsNode.dir n0 es0 f0) _ hsze
            · exact ihQ rest f2 p hszr c hc3
          · rw [if_neg hal] at hc2
            exact ihQ rest f2 p hszr c hc2
        rcases fuel with _ | k
        · rw [scanYield_cons_none] at hc
          exact key none hc
        · cases k with
          | zero =>
            rw [scanYield_cons_zero] at hc
            exact absurd hc (List.not_mem_nil c)
          | succ k2 =>
            rw [scanYield_cons_succ] at hc
            exact key (some k2) hc

/-- C7: every directory node produced by `scanDirectory` has its children
sorted with directories before files and, within a kind, ascending name
order; the sort is idempotent — sorting an already-sorted children list
leaves it unchanged. -/
theorem scanDirectory_sorted_spec :
    (∀ (e : FsNode) (p : String), treeSorted (scanDirectory e p) = true)
  ∧ (∀ cs : List TNode,
      List.Sorted (fun a b => nodeLe a b = true) cs → sortChildren cs = cs) := by
  constructor
  · intro e p
    exact (scan_sorted_aux (sizeOf e)).1 e p (Nat.le_refl _)
  · intro cs h
    exact h.insertionSort_eq

/-- Witness for C7: re-sorting a concrete sorted children list is the
identity, via the theorem applied at a concrete input. -/
theorem scanDirectory_sorted_spec_witness :
    sortChildren [TNode.dir "agents" "f/agents" [],
        TNode.file "feature.md" "f/feature.md"]
      = [TNode.dir "agents" "f/agents" [],
          TNode.file "feature.md" "f/feature.md"] :=
  scanDirectory_sorted_spec.2 _
    (by
      refine List.sorted_cons.mpr ⟨?_, ?_⟩
      · intro b hb
        rw [List.mem_singleton] at hb
        subst hb
        rfl
      · exact List.sorted_singleton _)

/-! C5 — project-level classification and scanner filtering. -/

/-- C5: with a parent path of exactly two segments `projects/{name}`, the
classifier admits only a directory named "features" and a file named
"overview.md"; entries rejected by the classifier are silently skipped by
the scanner; in the concrete scenario the unrecognized `readme.txt` is
absent while `overview.md` and the nested `feature.md` are retained. -/
theorem isAllowedEntry_project_level :
    (∀ (p x name kind : String), getPathSegments p = ["projects", x] →
      (isAllowedEntry name kind p = true ↔
        (kind = "directory" ∧ name = "features")
        ∨ (kind = "file" ∧ name = "overview.md")))
  ∧ (∀ (e : FsNode) (es : List FsNode) (p : String),
      isAllowedEntry e.nameOf e.kindOf p = false →
      scanList (e :: es) p = scanList es p)
  ∧ (containsName
        (scanDirectory (FsNode.dir "root" [
          FsNode.dir "projects" [
            FsNode.dir "acme" [
              FsNode.dir "features" [
                FsNode.dir "login" [FsNode.file "feature.md"] none] none,
              FsNode.file "readme.txt",
              FsNode.file "overview.md"] none] none] none) "")
        "readme.txt" = false
      ∧ containsName
          (scanDirectory (FsNode.dir "root" [
            FsNode.dir "projects" [
              FsNode.dir "acme" [
                FsNode.dir "features" [
                  FsNode.dir "login" [FsNode.file "feature.md"] none] none,
                FsNode.file "readme.txt",
                FsNode.file "overview.md"] none] none] none) "")
          "overview.md" = true
      ∧ containsName
          (scanDirectory (FsNode.dir "root" [
            FsNode.dir "projects" [
              FsNode.dir "acme" [
                FsNode.dir "features" [
                  FsNode.dir "login" [FsNode.file "feature.md"] none] none,
                FsNode.file "readme.txt",
                FsNode.file "overview.md"] none] none] none) "")
          "feature.md" = true) := by
  refine ⟨?_, ?_, by decide, by decide, by decide⟩
  · intro p x name kind hseg
    simp only [isAllowedEntry, hseg]
    simp only [isFeatureFolder, isAgentsFolder, isAgentFolder]
    simp
    by_cases hk : kind = "directory"
    · simp [hk]
    · by_cases hk2 : kind = "file"
      · simp [hk, hk2]
      · simp [hk, hk2]
  · intro e es p h
    unfold scanList
    rw [scanYield_cons_none, if_neg (by simp [h])]

/-- Witness for C5: the characterization applied at the concrete parent path
"projects/acme" rejects readme.txt and admits overview.md. -/
theorem isAllowedEntry_project_level_witness :
    isAllowedEntry "overview.md" "file" "projects/acme" = true
      ∧ isAllowedEntry "readme.txt" "file" "projects/acme" = false := by
  constructor
  · exact (isAllowedEntry_project_level.1 "projects/acme" "acme" "overview.md"
      "file" (by decide)).mpr (Or.inr ⟨rfl, rfl⟩)
  · have h := isAllowedEntry_project_level.1 "projects/acme" "acme"
      "readme.txt" "file" (by decide)
    simp at h
    exact h

/-! C6 — agent-folder classification. -/

/-- C6: with an agent-folder parent path (features/{a}/agents/{b} at depth 4
or projects/{a}/features/{b}/agents/{c} at depth 6) the classifier rejects
every directory and accepts exactly the files task-instructions.md and
status.md. -/
theorem isAllowedEntry_agent_folder :
    (∀ (p a b name : String),
      getPathSegments p = ["features", a, "agents", b] →
      isAllowedEntry name "directory" p = false
      ∧ (isAllowedEntry name "file" p = true ↔
          name = "task-instructions.md" ∨ name = "status.md"))
  ∧ (∀ (p a b c name : String),
      getPathSegments p = ["projects", a, "features", b, "agents", c] →
      isAllowedEntry name "directory" p = false
      ∧ (isAllowedEntry name "file" p = true ↔
          name = "task-instructions.md" ∨ name = "status.md")) := by
  constructor
  · intro p a b name hseg
    constructor
    · simp only [isAllowedEntry, hseg, isFeatureFolder, isAgentsFolder,
        isAgentFolder]
      simp
    · simp only [isAllowedEntry, hseg, isFeatureFolder, isAgentsFolder,
        isAgentFolder]
      simp
  · intro p a b c name hseg
    constructor
    · simp only [isAllowedEntry, hseg, isFeatureFolder, isAgentsFolder,
        isAgentFolder]
      simp
    · simp only [isAllowedEntry, hseg, isFeatureFolder, isAgentsFolder,
        isAgentFolder]
      simp

/-- Witness for C6: the characterization applied at concrete agent-folder
paths of both shapes. -/
theorem isAllowedEntry_agent_folder_witness :
    isAllowedEntry "status.md" "file" "features/login/agents/coder" = true
      ∧ isAllowedEntry "notes.txt" "directory" "features/login/agents/coder"
          = false
      ∧ isAllowedEntry "task-instructions.md" "file"
          "projects/acme/features/login/agents/coder" = true := by
  refine ⟨?_, ?_, ?_⟩
  · exact (isAllowedEntry_agent_folder.1 "features/login/agents/coder"
      "login" "coder" "status.md" (by decide)).2.mpr (Or.inr rfl)
  · exact (isAllowedEntry_agent_folder.1 "features/login/agents/coder"
      "login" "coder" "notes.txt" (by decide)).1
  · exact (isAllowedEntry_agent_folder.2
      "projects/acme/features/login/agents/coder" "acme" "login" "coder"
      "task-instructions.md" (by decide)).2.mpr (Or.inl rfl)

/-! C10 — depth bound. -/

theorem splitOnChar_append_sep (sep : Char) : ∀ (a b : List Char),
    splitOnChar sep (a ++ sep :: b) = splitOnChar sep a ++ splitOnChar sep b := by
  intro a b
  induction a with
  | nil => simp [splitOnChar]
  | cons c a2 ih =>
    by_cases h : c = sep
    · simp only [List.cons_append]
      rw [show splitOnChar sep (c :: (a2 ++ sep :: b))
          = [] :: splitOnChar sep (a2 ++ sep :: b) from by simp [splitOnChar, h],
        show splitOnChar sep (c :: a2) = [] :: splitOnChar sep a2 from by
          simp [splitOnChar, h],
        ih]
      rfl
    · cases hA : splitOnChar sep a2 with
      | nil => exact absurd hA (splitOnChar_ne_nil sep a2)
      | cons l0 ls0 =>
        simp only [List.cons_append]
        rw [show splitOnChar sep (c :: (a2 ++ sep :: b))
            = (match splitOnChar sep (a2 ++ sep :: b) with
               | [] => [[c]]
               | l :: ls => (c :: l) :: ls) from by simp [splitOnChar, h],
          ih, hA,
          show splitOnChar sep (c :: a2)
            = (match splitOnChar sep a2 with
               | [] => [[c]]
               | l :: ls => (c :: l) :: ls) from by simp [splitOnChar, h],
          hA]
        rfl

theorem splitOnChar_all_ne (sep : Char) : ∀ (l : List Char),
    (∀ c ∈ l, c ≠ sep) → splitOnChar sep l = [l] := by
  intro l
  induction l with
  | nil => intro _; rfl
  | cons c rest ih =>
    intro h
    have hc : c ≠ sep := h c (by simp)
    have hrest := ih fun d hd => h d (by simp [hd])
    rw [show splitOnChar sep (c :: rest)
        = (match splitOnChar sep rest with
           | [] => [[c]]
           | l :: ls => (c :: l) :: ls) from by simp [splitOnChar, hc],
      hrest]

theorem cleanName_parts (n : String) (hn : cleanName n = true) :
    n ≠ "" ∧ ∀ c ∈ n.data, c ≠ '/' := by
  simp only [cleanName, Bool.and_eq_true, bne_iff_ne, ne_eq,
    List.all_eq_true] at hn
  exact ⟨hn.1, fun c hc => by simpa using hn.2 c hc⟩

theorem depthOfPath_clean (n : String) (hn : cleanName n = true) :
    depthOfPath n = 1 := by
  obtain ⟨hne, hslash⟩ := cleanName_parts n hn
  unfold depthOfPath getPathSegments
  rw [if_neg (by simpa using hne), splitOnChar_all_ne '/' n.data hslash]
  rfl

theorem depthOfPath_join (p n : String) (hp : p ≠ "")
    (hn : cleanName n = true) :
    depthOfPath (joinPath p n) = depthOfPath p + 1 := by
  obtain ⟨_, hslash⟩ := cleanName_parts n hn
  rw [joinPath_of_ne p n hp]
  unfold depthOfPath getPathSegments
  rw [if_neg (by simpa using string_append_slash_ne_empty p n),
    if_neg (by simpa using hp)]
  have hdata : (p ++ "/" ++ n).data = p.data ++ '/' :: n.data := by
    simp [String.data_append]
  rw [hdata, splitOnChar_append_sep, splitOnChar_all_ne '/' n.data hslash]
  simp

theorem isFeatureFolder_length (s : List String)
    (h : isFeatureFolder s = true) : s.length = 2 ∨ s.length = 4 := by
  simp only [isFeatureFolder, Bool.or_eq_true, Bool.and_eq_true,
    beq_iff_eq] at h
  rcases h with ⟨h1, _⟩ | ⟨⟨h1, _⟩, _⟩
  · exact Or.inl h1
  · exact Or.inr h1

theorem isAgentsFolder_length (s : List String)
    (h : isAgentsFolder s = true) : s.length = 3 ∨ s.length = 5 := by
  simp only [isAgentsFolder] at h
  split at h
  · exact absurd h (by simp)
  · simp only [Bool.or_eq_true, Bool.and_eq_true, beq_iff_eq] at h
    rcases h with ⟨h1, _⟩ | ⟨⟨h1, _⟩, _⟩
    · exact Or.inl h1
    · exact Or.inr h1

theorem isAgentFolder_length (s : List String)
    (h : isAgentFolder s = true) : s.length = 4 ∨ s.length = 6 := by
  simp only [isAgentFolder, Bool.or_eq_true, Bool.and_eq_true,
    beq_iff_eq] at h
  rcases h with ⟨⟨h1, _⟩, _⟩ | ⟨⟨⟨h1, _⟩, _⟩, _⟩
  · exact Or.inl h1
  · exact Or.inr h1

theorem isAllowedEntry_of_deep (name kind p : String)
    (h7 : 7 ≤ (getPathSegments p).length) :
    isAllowedEntry name kind p = false := by
  have h0 : ((getPathSegments p).length == 0) = false := by
    simp only [beq_eq_false_iff_ne, ne_eq]
    omega
  have h1 : ((getPathSegments p).length == 1) = false := by
    simp only [beq_eq_false_iff_ne, ne_eq]
    omega
  have h2 : ((getPathSegments p).length == 2) = false := by
    simp only [beq_eq_false_iff_ne, ne_eq]
    omega
  have h3 : ((getPathSegments p).length == 3) = false := by
    simp only [beq_eq_false_iff_ne, ne_eq]
    omega
  have hff : isFeatureFolder (getPathSegments p) = false := by
    cases hv : isFeatureFolder (getPathSegments p) with
    | false => rfl
    | true =>
      have := isFeatureFolder_length _ hv
      omega
  have haf : isAgentsFolder (getPathSegments p) = false := by
    cases hv : isAgentsFolder (getPathSegments p) with
    | false => rfl
    | true =>
      have := isAgentsFolder_length _ hv
      omega
  have hag : isAgentFolder (getPathSegments p) = false := by
    cases hv : isAgentFolder (getPathSegments p) with
    | false => rfl
    | true =>
      have := isAgentFolder_length _ hv
      omega
  simp only [isAllowedEntry, h0, h1, h2, h3, hff, haf, hag, Bool.and_false,
    Bool.false_and, Bool.false_eq_true, if_false, ite_false]

theorem isAllowedEntry_depth_le (name kind p : String)
    (h : isAllowedEntry name kind p = true) : depthOfPath p ≤ 6 := by
  by_contra hc
  have h7 : 7 ≤ (getPathSegments p).length := by
    unfold depthOfPath at hc
    omega
  rw [isAllowedEntry_of_deep name kind p h7] at h
  exact Bool.noConfusion h

theorem cleanFs_name (e : FsNode) (h : cleanFs e = true) :
    cleanName e.nameOf = true := by
  cases e with
  | file n => simpa [cleanFs, FsNode.nameOf] using h
  | dir n es f =>
    simp only [cleanFs, Bool.and_eq_true] at h
    simpa [FsNode.nameOf] using h.1

theorem cleanFsList_iff (es : List FsNode) :
    cleanFsList es = true ↔ ∀ e ∈ es, cleanFs e = true := by
  induction es with
  | nil => simp [cleanFsList]
  | cons e es ih => simp [cleanFsList, Bool.and_eq_true, ih]

theorem nodesWithinList_iff (cs : List TNode) (k : Nat) :
    nodesWithinList cs k = true ↔ ∀ c ∈ cs, nodesWithin c k = true := by
  induction cs with
  | nil => simp [nodesWithinList]
  | cons c cs ih => simp [nodesWithinList, Bool.and_eq_true, ih]

theorem scan_depth_aux : ∀ N : Nat,
    (∀ (e : FsNode) (p : String), sizeOf e ≤ N → cleanFs e = true →
      p ≠ "" → depthOfPath p ≤ 7 → nodesWithin (scanDirectory e p) 7 = true)
    ∧ (∀ (es : List FsNode) (fuel : Option Nat) (p : String), sizeOf es ≤ N →
      (∀ e ∈ es, cleanFs e = true) → p ≠ "" →
      ∀ c ∈ scanYield es fuel p, nodesWithin c 7 = true) := by
  intro N
  induction N with
  | zero =>
    constructor
    · intro e p hsz
      exfalso
      have := sizeOf_fs_pos e
      omega
    · intro es fuel p hsz
      exfalso
      cases es with
      | nil => simp at hsz
      | cons a l => simp at hsz
  | succ N ih =>
    obtain ⟨ihP, ihQ⟩ := ih
    constructor
    · intro e p hsz hcl hp hdep
      have hpb : (p == "") = false := beq_eq_false_iff_ne.mpr hp
      cases e with
      | file n =>
        show Nat.ble (depthOfPath (if p == "" then n else p)) 7 = true
        rw [hpb]
        simpa [Nat.ble_eq] using hdep
      | dir n entries failAt =>
        have hsz2 : sizeOf entries ≤ N := by
          simp at hsz
          omega
        have hcl2 : ∀ e2 ∈ entries, cleanFs e2 = true := by
          simp only [cleanFs, Bool.and_eq_true, cleanFsList_iff] at hcl
          exact hcl.2
        show nodesWithin (TNode.dir n (if p == "" then n else p)
          (sortChildren (scanYield entries failAt p))) 7 = true
        simp only [nodesWithin, hpb, Bool.false_eq_true, if_false, ite_false,
          Bool.and_eq_true]
        constructor
        · simpa [Nat.ble_eq] using hdep
        · rw [nodesWithinList_iff]
          intro c hc
          have hc2 : c ∈ scanYield entries failAt p := by
            simpa [sortChildren, List.mem_insertionSort] using hc
          exact ihQ entries failAt p hsz2 hcl2 hp c hc2
    · intro es fuel p hsz hcl hp c hc
      cases es with
      | nil =>
        rw [scanYield_nil] at hc
        exact absurd hc (List.not_mem_nil c)
      | cons e rest =>
        have h1e := sizeOf_fs_pos e
        have hsze : sizeOf e ≤ N := by
          simp at hsz
          omega
        have hszr : sizeOf rest ≤ N := by
          simp at hsz
          omega
        have hcle : cleanFs e = true := hcl e (by simp)
        have hclr : ∀ e2 ∈ rest, cleanFs e2 = true :=
          fun e2 he2 => hcl e2 (by simp [he2])
        have key : ∀ f2 : Option Nat,
            c ∈ (if isAllowedEntry e.nameOf e.kindOf p then
                  scanEntry e p :: scanYield rest f2 p
                 else scanYield rest f2 p) →
            nodesWithin c 7 = true := by
          intro f2 hc2
          by_cases hal : isAllowedEntry e.nameOf e.kindOf p = true
          · rw [if_pos hal] at hc2
            rcases List.mem_cons.mp hc2 with rfl | hc3
            · have hdp : depthOfPath p ≤ 6 := isAllowedEntry_depth_le _ _ _ hal
              have hclname : cleanName e.nameOf = true := cleanFs_name e hcle
              have hjd : depthOfPath (joinPath p e.nameOf)
                  = depthOfPath p + 1 := depthOfPath_join p e.nameOf hp hclname
              cases e with
              | file n0 =>
                show Nat.ble (depthOfPath (joinPath p n0)) 7 = true
                rw [show (FsNode.file n0).nameOf = n0 from rfl] at hjd
                rw [hjd]
                simp [Nat.ble_eq]
                omega
              | dir n0 es0 f0 =>
                show nodesWithin (scanDirectory (FsNode.dir n0 es0 f0)
                  (joinPath p (FsNode.dir n0 es0 f0).nameOf)) 7 = true
                refine ihP (FsNode.dir n0 es0 f0) _ hsze hcle
                  (joinPath_ne_empty _ _ hp) ?_
                rw [hjd]
                omega
            · exact ihQ rest f2 p hszr hclr hp c hc3
          · rw [if_neg hal] at hc2
            exact ihQ rest f2 p hszr hclr hp c hc2
        rcases fuel with _ | k
        · rw [scanYield_cons_none] at hc
          exact key none hc
        · cases k with
          | zero =>
            rw [scanYield_cons_zero] at hc
            exact absurd hc (List.not_mem_nil c)
          | succ k2 =>
            rw [scanYield_cons_succ] at hc
            exact key (some k2) hc

theorem scanYield_root_depth : ∀ (es : List FsNode) (fuel : Option Nat),
    (∀ e ∈ es, cleanFs e = true) →
    ∀ c ∈ scanYield es fuel "", nodesWithin c 7 = true := by
  intro es
  induction es with
  | nil =>
    intro fuel _ c hc
    rw [scanYield_nil] at hc
    exact absurd hc (List.not_mem_nil c)
  | cons e rest ih =>
    intro fuel hcl c hc
    have hcle : cleanFs e = true := hcl e (by simp)
    have hclr : ∀ e2 ∈ rest, cleanFs e2 = true :=
      fun e2 he2 => hcl e2 (by simp [he2])
    have key : ∀ f2 : Option Nat,
        c ∈ (if isAllowedEntry e.nameOf e.kindOf "" then
              scanEntry e "" :: scanYield rest f2 ""
             else scanYield rest f2 "") →
        nodesWithin c 7 = true := by
      intro f2 hc2
      by_cases hal : isAllowedEntry e.nameOf e.kindOf "" = true
      · rw [if_pos hal] at hc2
        rcases List.mem_cons.mp hc2 with rfl | hc3
        · have hclname := cleanFs_name e hcle
          obtain ⟨hne, _⟩ := cleanName_parts e.nameOf hclname
          cases e with
          | file n0 =>
            show Nat.ble (depthOfPath (joinPath "" n0)) 7 = true
            rw [show joinPath "" n0 = n0 from rfl,
              depthOfPath_clean n0 (by simpa [FsNode.nameOf] using hclname)]
            rfl
          | dir n0 es0 f0 =>
            show nodesWithin (scanDirectory (FsNode.dir n0 es0 f0)
              (joinPath "" (FsNode.dir n0 es0 f0).nameOf)) 7 = true
            rw [show joinPath "" (FsNode.dir n0 es0 f0).nameOf = n0 from rfl]
            refine (scan_depth_aux (sizeOf (FsNode.dir n0 es0 f0))).1 _ n0
              (Nat.le_refl _) hcle ?_ ?_
            · simpa [FsNode.nameOf] using hne
            · rw [depthOfPath_clean n0
                (by simpa [FsNode.nameOf] using hclname)]
              omega
        · exact ih f2 hclr c hc3
      · rw [if_neg hal] at hc2
        exact ih f2 hclr c hc2
    rcases fuel with _ | k
    · rw [scanYield_cons_none] at hc
      exact key none hc
    · cases k with
      | zero =>
        rw [scanYield_cons_zero] at hc
        exact absurd hc (List.not_mem_nil c)
      | succ k2 =>
        rw [scanYield_cons_succ] at hc
        exact key (some k2) hc

/-- C10: the classifier rejects every entry whose parent path has 7 or more
segments, so for every realizable root directory (non-empty, slash-free
entry names) each node of the produced tree lies at most 7 path segments
deep — the recursion never descends further, however deep the underlying
tree is. -/
theorem scanDirectory_depth_spec :
    (∀ (name kind p : String), 7 ≤ depthOfPath p →
      isAllowedEntry name kind p = false)
  ∧ (∀ root : FsNode, cleanFs root = true →
      nodesWithin (scanDirectory root "") 7 = true) := by
  constructor
  · intro name kind p h7
    exact isAllowedEntry_of_deep name kind p h7
  · intro root hcl
    cases root with
    | file n =>
      show Nat.ble (depthOfPath (if ("" : String) == "" then n else "")) 7
        = true
      rw [show ((if ("" : String) == "" then n else "") : String) = n from rfl,
        depthOfPath_clean n (by simpa [cleanFs] using hcl)]
      rfl
    | dir n entries failAt =>
      have hcl2 : ∀ e2 ∈ entries, cleanFs e2 = true := by
        simp only [cleanFs, Bool.and_eq_true, cleanFsList_iff] at hcl
        exact hcl.2
      have hcln : cleanName n = true := by
        simp only [cleanFs, Bool.and_eq_true] at hcl
        exact hcl.1
      show nodesWithin (TNode.dir n (if ("" : String) == "" then n else "")
        (sortChildren (scanYield entries failAt ""))) 7 = true
      simp only [nodesWithin, Bool.and_eq_true]
      constructor
      · rw [show ((if ("" : String) == "" then n else "") : String) = n
            from rfl,
          depthOfPath_clean n hcln]
        rfl
      · rw [nodesWithinList_iff]
        intro c hc
        have hc2 : c ∈ scanYield entries failAt "" := by
          simpa [sortChildren, List.mem_insertionSort] using hc
        exact scanYield_root_depth entries failAt hcl2 c hc2

/-- Witness for C10: a concrete 7-segment parent path is rejected, and a
concrete clean workspace tree scans within the depth bound. -/
theorem scanDirectory_depth_spec_witness :
    isAllowedEntry "x.md" "file" "projects/a/features/b/agents/c/deep" = false
      ∧ nodesWithin (scanDirectory
          (FsNode.dir "root" [FsNode.dir "features" [
            FsNode.dir "login" [FsNode.file "feature.md"] none] none] none)
          "") 7 = true :=
  ⟨scanDirectory_depth_spec.1 "x.md" "file"
      "projects/a/features/b/agents/c/deep" (by decide),
    scanDirectory_depth_spec.2
      (FsNode.dir "root" [FsNode.dir "features" [
        FsNode.dir "login" [FsNode.file "feature.md"] none] none] none)
      (by decide)⟩

end Workbench
